import Mathlib

/-!
Verification of the tree-construction and rendering core of the
repo-treegen project (src/components/github-tree-generator.tsx,
function generateTree, lines 78-107).

The core is a JavaScript function in two parts:
  - a Builder that folds a list of slash-delimited path strings into a
    nested plain object (type TreeNode, a mapping from segment name to
    child TreeNode), inserting only segments whose index is strictly
    below maxDepth;
  - a Renderer that walks the object with Object.entries, emitting one
    line per key with a connector that depends on the position of the
    key among its siblings.

The embedding models the own-property table of the JavaScript plain
object, including the ECMAScript own-property enumeration order used by
Object.entries and Object.keys (OrdinaryOwnPropertyKeys): keys that are
array indices (canonical decimal strings whose numeric value is below
2^32 - 1) are enumerated first, in ascending numeric order, and all
other string keys follow in property-creation order.  A TreeNode
therefore stores its entries directly in enumeration order, and property
creation (createE) places an array-index key at its numeric rank inside
the leading index block while any other key is appended at the end.

Scope of the model.  The builder's guard on line 85 of the source is the
truthiness of the property read current[part], and a JavaScript property
read also walks the prototype chain.  This model renders the guard as
the presence of an OWN key, so it is exact precisely for inputs none of
whose visited segments name an inherited member of Object.prototype
(toString, constructor, valueOf, hasOwnProperty, the accessor named
underscore-underscore-proto, and the like).  On segments that do name
inherited members, the real program diverges from the model: the guard
sees a truthy inherited value and creates no own key, the walk descends
into a shared built-in object, a proto segment makes it mutate the
global Object.prototype (state that persists across invocations in one
realm), and some segments raise a TypeError in strict mode (writing the
non-writable length of an inherited function, or reading a poisoned
caller accessor).  Those shared-state and error behaviors are outside
this pure model; where they decide a claimed property, the claim is
settled against the program by direct analysis rather than by a theorem
over this model, and the theorems below are confined to statements the
model renders exactly.
-/

/-- Decides whether a character is a decimal digit, by its code point. -/
def isDigitCh (c : Char) : Bool := 48 ≤ c.toNat && c.toNat ≤ 57

/-- Numeric value of a most-significant-digit-first list of decimal digit
characters. -/
def digitsVal : List Char → Nat
  | [] => 0
  | c :: cs => (c.toNat - 48) * 10 ^ cs.length + digitsVal cs

/-- Decides whether a list of characters is the canonical decimal
representation of a natural number: nonempty, all digits, and no leading
zero unless the whole list is the single digit 0. -/
def isCanonNum : List Char → Bool
  | [] => false
  | c :: cs => (c :: cs).all isDigitCh && (c.toNat != 48 || cs.isEmpty)

/-- Decides whether a string is an ECMAScript array index: the canonical
decimal representation of an integer n with 0 ≤ n < 2^32 - 1.  Such keys
are enumerated by Object.entries before all other keys, in ascending
numeric order. -/
def isArrayIndex (s : String) : Bool :=
  isCanonNum s.data && decide (digitsVal s.data < 4294967295)

/-- Numeric value of a string key, used to order array-index keys. -/
def valOf (s : String) : Nat := digitsVal s.data

/-- Helper for splitSeg: splits a character list on the slash character,
accumulating the current segment in reverse. -/
def splitGo : List Char → List Char → List String
  | [], cur => [String.mk cur.reverse]
  | c :: cs, cur =>
    if c = '/' then String.mk cur.reverse :: splitGo cs []
    else splitGo cs (c :: cur)

/-- Embedding of JavaScript item.path.split(sep) for the one-character
separator "/" (line 81 of the source): returns the list of slash-delimited
segments, keeping empty segments, with the empty string splitting to a
single empty segment. -/
def splitSeg (s : String) : List String := splitGo s.data []

mutual
/-- Embedding of the source type TreeNode: a plain-object mapping from
segment name to child TreeNode (line 25 of the source).  The entry list is
kept in Object.entries enumeration order. -/
inductive TreeNode : Type where
  | mk (entries : EntryList) : TreeNode
  deriving DecidableEq
/-- Entry list of a TreeNode: key-child pairs in enumeration order. -/
inductive EntryList : Type where
  | nil : EntryList
  | cons (key : String) (child : TreeNode) (rest : EntryList) : EntryList
  deriving DecidableEq
end

/-- Entry list of a node. -/
def TreeNode.es : TreeNode → EntryList
  | .mk entries => entries

/-- The empty object literal, written as two braces in the source. -/
def emptyNode : TreeNode := .mk .nil

/-- Number of entries of an entry list; Object.keys(node).length. -/
def lengthE : EntryList → Nat
  | .nil => 0
  | .cons _ _ rest => 1 + lengthE rest

/-- Whether an entry list is empty; Object.keys(node).length is 0. -/
def isEmptyE : EntryList → Bool
  | .nil => true
  | .cons _ _ _ => false

/-- Keys of an entry list, in enumeration order; Object.keys. -/
def keysE : EntryList → List String
  | .nil => []
  | .cons k _ rest => k :: keysE rest

/-- Whether the object has an own property named p.  The guard on line
85 of the source tests the truthiness of the property read
current[part]; a present own value is always an object, hence truthy,
but the real read also consults the prototype chain, so for a segment
naming an inherited Object.prototype member the real guard is truthy
without any own key.  This model renders the guard as own-key presence
and is exact only for segments that are not inherited-member names. -/
def hasKeyE : EntryList → String → Bool
  | .nil, _ => false
  | .cons k _ rest, p => k == p || hasKeyE rest p

/-- Property read: the child stored under key p, if present. -/
def lookupE : EntryList → String → Option TreeNode
  | .nil, _ => none
  | .cons k c rest, p => if k == p then some c else lookupE rest p

/-- Overwrites the child stored under an existing key p, keeping the key
at its position: a property write to an existing property does not move
it in enumeration order. -/
def replaceE : EntryList → String → TreeNode → EntryList
  | .nil, _, _ => .nil
  | .cons k c0 rest, p, c =>
    if k == p then .cons k c rest else .cons k c0 (replaceE rest p c)

/-- Inserts a fresh array-index key at its ascending-numeric rank inside
the leading array-index block, per ECMAScript OrdinaryOwnPropertyKeys. -/
def insertIdxE (p : String) (c : TreeNode) : EntryList → EntryList
  | .nil => .cons p c .nil
  | .cons k0 c0 rest =>
    if isArrayIndex k0 && decide (valOf k0 < valOf p) then
      .cons k0 c0 (insertIdxE p c rest)
    else .cons p c (.cons k0 c0 rest)

/-- Appends a fresh non-index key at the end of the entry list: string
keys are enumerated in property-creation order. -/
def appendE (p : String) (c : TreeNode) : EntryList → EntryList
  | .nil => .cons p c .nil
  | .cons k0 c0 rest => .cons k0 c0 (appendE p c rest)

/-- Creates a fresh property named p with value c, placing it in the
entry list at its ECMAScript enumeration-order position. -/
def createE (p : String) (c : TreeNode) (es : EntryList) : EntryList :=
  if isArrayIndex p then insertIdxE p c es else appendE p c es

/-- Property write: overwrite when the key exists, create it otherwise.
Models lines 85-88 of the source, where a missing child is first created
as an empty object and the walk then descends and mutates it in place. -/
def setE (es : EntryList) (p : String) (c : TreeNode) : EntryList :=
  if hasKeyE es p then replaceE es p c else createE p c es

/-- Embedding of the per-entry builder loop (lines 83-90 of the source):
parts.forEach walks the segments with their index; a segment is visited
only while index < maxDepth, in which case the walk creates the child if
missing and descends into it.  The in-place mutation of the JavaScript
walk is rendered functionally: the child reached under key p is rebuilt
by the recursive call and written back at the same position.  The model
keeps the walk inside the pure tree; the real walk's descent into
inherited shared objects (when a segment names an inherited member, see
hasKeyE), its mutation of Object.prototype through a proto segment, and
its strict-mode TypeError paths are not modelled. -/
def insertParts : List String → Nat → Int → TreeNode → TreeNode
  | [], _, _, t => t
  | p :: rest, i, d, t =>
    if (i : Int) < d then
      TreeNode.mk
        (setE t.es p
          (insertParts rest (i + 1) d ((lookupE t.es p).getD emptyNode)))
    else insertParts rest (i + 1) d t

/-- Embedding of the Builder (lines 79-91 of the source): fold every path
entry, in input order, into an initially empty root object. -/
def buildTree (paths : List String) (maxDepth : Int) : TreeNode :=
  paths.foldl (fun t p => insertParts (splitSeg p) 0 maxDepth t) emptyNode

mutual
/-- Embedding of the Renderer (lines 93-104 of the source): obtains the
entries of the node in enumeration order, records their count, and walks
them with a running index. -/
def renderTree : TreeNode → String → String
  | .mk es, pre => renderEntries es pre (lengthE es) 0

/-- Embedding of the entries.forEach body (lines 96-102 of the source):
isLast compares the running index with the total count minus one; each
entry emits pre, then an elbow connector if last, a tee connector
otherwise, then the key and a newline; a child with at least one entry is
rendered recursively under the extended continuation, and its text is
appended immediately after the line, before the next sibling. -/
def renderEntries : EntryList → String → Nat → Nat → String
  | .nil, _, _, _ => ""
  | .cons k c rest, pre, n, i =>
    pre ++ (if i == n - 1 then "└── " else "├── ") ++ k ++ "\n"
      ++ (if isEmptyE c.es then ""
          else renderTree c (pre ++ (if i == n - 1 then "    " else "│   ")))
      ++ renderEntries rest pre n (i + 1)
end

/-- Embedding of generateTree (lines 78-107 of the source): build the
hierarchy from the path entries with the given depth bound, then render
it with the empty prefix. -/
def generateTree (paths : List String) (maxDepth : Int) : String :=
  renderTree (buildTree paths maxDepth) ""

/-!
Specification-side definitions: measures and views of the embedded
program, used to state the verified properties.
-/

/-- Entry list as a Lean list of key-child pairs, in enumeration order. -/
def toListE : EntryList → List (String × TreeNode)
  | .nil => []
  | .cons k c rest => (k, c) :: toListE rest

mutual
/-- Total number of keys in a hierarchy, over all nesting levels. -/
def countT : TreeNode → Nat
  | .mk es => countE es
/-- Total number of keys in an entry list, over all nesting levels. -/
def countE : EntryList → Nat
  | .nil => 0
  | .cons _ c rest => 1 + countT c + countE rest
end

mutual
/-- Height of a hierarchy: 0 for the empty node, and one more than the
deepest child otherwise.  Keys at nesting level j exist only when the
height exceeds j. -/
def heightT : TreeNode → Nat
  | .mk es => heightE es
/-- Height contributed by an entry list. -/
def heightE : EntryList → Nat
  | .nil => 0
  | .cons _ c rest => max (1 + heightT c) (heightE rest)
end

/-- Number of newline characters in a string. -/
def countNl (s : String) : Nat := s.data.count '\n'

mutual
/-- Whether no key anywhere in the hierarchy contains a newline. -/
def nlFreeT : TreeNode → Bool
  | .mk es => nlFreeE es
/-- Whether no key in an entry list or below contains a newline. -/
def nlFreeE : EntryList → Bool
  | .nil => true
  | .cons k c rest => (countNl k == 0) && nlFreeT c && nlFreeE rest
end

/-- Connector chosen for the sibling at position i of n: the elbow for
the last position, the tee for every other position. -/
def connOf (i n : Nat) : String := if i == n - 1 then "└── " else "├── "

/-- Continuation appended to the prefix for the child at position i of n:
four spaces for the last position, the vertical bar otherwise. -/
def contOf (i n : Nat) : String := if i == n - 1 then "    " else "│   "

/-- Text block contributed by the sibling (k, c) at position i of n under
prefix pre: its own line, followed immediately by its recursively
rendered subtree when it has at least one entry. -/
def blockOf (pre k : String) (c : TreeNode) (i n : Nat) : String :=
  pre ++ connOf i n ++ k ++ "\n"
    ++ (if isEmptyE c.es then "" else renderTree c (pre ++ contOf i n))

/-- Per-sibling text blocks of an entry list, indexed from i with total
count n. -/
def blocksFrom (pre : String) (n : Nat) : Nat → List (String × TreeNode) → List String
  | _, [] => []
  | i, (k, c) :: rest => blockOf pre k c i n :: blocksFrom pre n (i + 1) rest

/-- Concatenation of a list of text blocks. -/
def concatBlocks : List String → String
  | [] => ""
  | b :: bs => b ++ concatBlocks bs

/-- Order in which first segments of the path entries are first
encountered while scanning the entries in input order. -/
def firstSegStep (acc : List String) (p : String) : List String :=
  match splitSeg p with
  | [] => acc
  | s :: _ => if s ∈ acc then acc else acc ++ [s]

/-- First-encounter order of the first segments of a path sequence. -/
def firstSeenSegs (paths : List String) : List String :=
  paths.foldl firstSegStep []

/-- Total number of path segments across all path entries. -/
def totalSegs : List String → Nat
  | [] => 0
  | p :: rest => (splitSeg p).length + totalSegs rest

/-!
Helper lemmas.
-/

theorem strDataAppend (a b : String) : (a ++ b).data = a.data ++ b.data := by
  cases a; cases b; rfl

theorem strAppendNil (s : String) : s ++ "" = s := by
  cases s with
  | mk l =>
    show String.mk (l ++ []) = String.mk l
    rw [List.append_nil]

theorem strAssoc (a b c : String) : (a ++ b) ++ c = a ++ (b ++ c) := by
  cases a; cases b; cases c
  show String.mk _ = String.mk _
  rw [List.append_assoc]

theorem countNl_append (a b : String) : countNl (a ++ b) = countNl a + countNl b := by
  simp [countNl, strDataAppend, List.count_append]

theorem heightT_mk (es : EntryList) : heightT (.mk es) = heightE es := rfl

theorem heightT_es (t : TreeNode) : heightT t = heightE t.es := by
  cases t; rfl

theorem countT_es (t : TreeNode) : countT t = countE t.es := by
  cases t; rfl

theorem lookupE_of_hasKeyE (es : EntryList) (p : String)
    (h : hasKeyE es p = true) : ∃ c0, lookupE es p = some c0 := by
  cases es with
  | nil => simp [hasKeyE] at h
  | cons k c rest =>
    simp only [hasKeyE, Bool.or_eq_true] at h
    simp only [lookupE]
    split
    · exact ⟨c, rfl⟩
    · rcases h with h | h
      · simp_all
      · exact lookupE_of_hasKeyE rest p h

theorem lookupE_of_not_hasKeyE (es : EntryList) (p : String)
    (h : hasKeyE es p = false) : lookupE es p = none := by
  cases es with
  | nil => rfl
  | cons k c rest =>
    simp only [hasKeyE, Bool.or_eq_false_iff] at h
    simp only [lookupE]
    split
    · simp_all
    · exact lookupE_of_not_hasKeyE rest p h.2

theorem countT_of_isEmpty (c : TreeNode) (h : isEmptyE c.es = true) : countT c = 0 := by
  cases c with
  | mk es =>
    cases es with
    | nil => rfl
    | cons k c0 rest => simp [TreeNode.es, isEmptyE] at h

theorem renderEntries_eq_blocks (es : EntryList) (pre : String) (n i : Nat) :
    renderEntries es pre n i = concatBlocks (blocksFrom pre n i (toListE es)) := by
  cases es with
  | nil => rfl
  | cons k c rest =>
    simp only [renderEntries, toListE, blocksFrom, concatBlocks, blockOf, connOf, contOf,
      renderEntries_eq_blocks rest pre n (i + 1), strAssoc]

theorem renderTree_eq_blocks (t : TreeNode) (pre : String) :
    renderTree t pre = concatBlocks (blocksFrom pre (lengthE t.es) 0 (toListE t.es)) := by
  cases t with
  | mk es => exact renderEntries_eq_blocks es pre (lengthE es) 0

mutual
theorem countNl_renderTree (t : TreeNode) (pre : String)
    (h1 : nlFreeT t = true) (h2 : countNl pre = 0) :
    countNl (renderTree t pre) = countT t := by
  cases t with
  | mk es => exact countNl_renderEntries es pre (lengthE es) 0 h1 h2

theorem countNl_renderEntries (es : EntryList) (pre : String) (n i : Nat)
    (h1 : nlFreeE es = true) (h2 : countNl pre = 0) :
    countNl (renderEntries es pre n i) = countE es := by
  cases es with
  | nil => rfl
  | cons k c rest =>
    simp only [nlFreeE, Bool.and_eq_true, beq_iff_eq] at h1
    obtain ⟨⟨hk, hc⟩, hrest⟩ := h1
    simp only [renderEntries, countNl_append, h2, hk, countE]
    have hnl : countNl "\n" = 1 := by decide
    have hconn : countNl (if i == n - 1 then "└── " else "├── ") = 0 := by
      split <;> decide
    have hcont : countNl (if i == n - 1 then "    " else "│   ") = 0 := by
      split <;> decide
    have hmid : countNl (if isEmptyE c.es then ""
        else renderTree c (pre ++ (if i == n - 1 then "    " else "│   "))) = countT c := by
      split
      · rename_i hemp
        rw [countT_of_isEmpty c hemp]
        decide
      · exact countNl_renderTree c _ hc (by rw [countNl_append, h2, hcont])
    rw [hconn, hnl, hmid, countNl_renderEntries rest pre n (i + 1) hrest h2]
end

theorem heightE_replaceE (es : EntryList) (p : String) (c : TreeNode) :
    heightE (replaceE es p c) ≤ max (heightE es) (1 + heightT c) := by
  cases es with
  | nil => simp [replaceE, heightE]
  | cons k c0 rest =>
    simp only [replaceE]
    split
    · simp only [heightE]
      omega
    · have := heightE_replaceE rest p c
      simp only [heightE]
      omega

theorem heightE_insertIdxE (p : String) (c : TreeNode) (es : EntryList) :
    heightE (insertIdxE p c es) ≤ max (heightE es) (1 + heightT c) := by
  cases es with
  | nil => simp [insertIdxE, heightE]
  | cons k0 c0 rest =>
    simp only [insertIdxE]
    split
    · have := heightE_insertIdxE p c rest
      simp only [heightE]
      omega
    · simp only [heightE]
      omega

theorem heightE_appendE (p : String) (c : TreeNode) (es : EntryList) :
    heightE (appendE p c es) ≤ max (heightE es) (1 + heightT c) := by
  cases es with
  | nil => simp [appendE, heightE]
  | cons k0 c0 rest =>
    have := heightE_appendE p c rest
    simp only [appendE, heightE]
    omega

theorem heightE_setE (es : EntryList) (p : String) (c : TreeNode) :
    heightE (setE es p c) ≤ max (heightE es) (1 + heightT c) := by
  simp only [setE]
  split
  · exact heightE_replaceE es p c
  · simp only [createE]
    split
    · exact heightE_insertIdxE p c es
    · exact heightE_appendE p c es

theorem heightT_lookupE (es : EntryList) (p : String) (c : TreeNode)
    (h : lookupE es p = some c) : 1 + heightT c ≤ heightE es := by
  cases es with
  | nil => simp [lookupE] at h
  | cons k c0 rest =>
    simp only [lookupE] at h
    split at h
    · cases h
      simp only [heightE]
      omega
    · have := heightT_lookupE rest p c h
      simp only [heightE]
      omega

theorem insertParts_stop (parts : List String) (i : Nat) (d : Int) (t : TreeNode)
    (h : d ≤ (i : Int)) : insertParts parts i d t = t := by
  cases parts with
  | nil => rfl
  | cons p rest =>
    simp only [insertParts]
    rw [if_neg (by omega)]
    exact insertParts_stop rest (i + 1) d t (by omega)

theorem insertParts_height (parts : List String) (i : Nat) (d : Int) (t : TreeNode) :
    heightT (insertParts parts i d t) ≤ max (heightT t) ((d - i).toNat) := by
  cases parts with
  | nil => simp [insertParts]
  | cons p rest =>
    simp only [insertParts]
    split
    · rename_i hlt
      rw [heightT_mk]
      have hset := heightE_setE t.es p
        (insertParts rest (i + 1) d ((lookupE t.es p).getD emptyNode))
      have hrec := insertParts_height rest (i + 1) d ((lookupE t.es p).getD emptyNode)
      rw [heightT_es t]
      have hbound : heightT ((lookupE t.es p).getD emptyNode) = 0 ∨
          1 + heightT ((lookupE t.es p).getD emptyNode) ≤ heightE t.es := by
        cases hlook : lookupE t.es p with
        | none => left; rfl
        | some c0 =>
          right
          rw [Option.getD_some]
          exact heightT_lookupE t.es p c0 hlook
      omega
    · rename_i hge
      have hrec := insertParts_height rest (i + 1) d t
      omega

theorem buildTree_height (paths : List String) (d : Int) :
    heightT (buildTree paths d) ≤ d.toNat := by
  suffices h : ∀ (t : TreeNode), heightT t ≤ d.toNat →
      heightT (List.foldl (fun t p => insertParts (splitSeg p) 0 d t) t paths) ≤ d.toNat by
    exact h emptyNode (by simp [emptyNode, heightT_mk, heightE])
  induction paths with
  | nil => intro t ht; simpa using ht
  | cons p rest ih =>
    intro t ht
    simp only [List.foldl_cons]
    apply ih
    have := insertParts_height (splitSeg p) 0 d t
    simp only [Nat.cast_zero, Int.sub_zero] at this
    omega

theorem countE_replaceE (es : EntryList) (p : String) (c c0 : TreeNode)
    (h : lookupE es p = some c0) :
    countE (replaceE es p c) + countT c0 = countE es + countT c := by
  cases es with
  | nil => simp [lookupE] at h
  | cons k c1 rest =>
    simp only [lookupE] at h
    simp only [replaceE]
    split
    · rename_i hk
      rw [if_pos hk] at h
      cases h
      simp only [countE]
      omega
    · rename_i hk
      rw [if_neg hk] at h
      have := countE_replaceE rest p c c0 h
      simp only [countE]
      omega

theorem countE_insertIdxE (p : String) (c : TreeNode) (es : EntryList) :
    countE (insertIdxE p c es) = 1 + countT c + countE es := by
  cases es with
  | nil => simp [insertIdxE, countE]
  | cons k0 c0 rest =>
    simp only [insertIdxE]
    split
    · have := countE_insertIdxE p c rest
      simp only [countE]
      omega
    · simp only [countE]

theorem countE_appendE (p : String) (c : TreeNode) (es : EntryList) :
    countE (appendE p c es) = 1 + countT c + countE es := by
  cases es with
  | nil => simp [appendE, countE]
  | cons k0 c0 rest =>
    have := countE_appendE p c rest
    simp only [appendE, countE]
    omega

theorem countE_createE (p : String) (c : TreeNode) (es : EntryList) :
    countE (createE p c es) = 1 + countT c + countE es := by
  simp only [createE]
  split
  · exact countE_insertIdxE p c es
  · exact countE_appendE p c es

theorem insertParts_count (parts : List String) (i : Nat) (d : Int) (t : TreeNode) :
    countT (insertParts parts i d t) ≤ countT t + parts.length := by
  cases parts with
  | nil => simp [insertParts]
  | cons p rest =>
    simp only [insertParts]
    split
    · have hrec := insertParts_count rest (i + 1) d ((lookupE t.es p).getD emptyNode)
      rw [countT_es t, countT_es (TreeNode.mk _), TreeNode.es]
      simp only [setE]
      split
      · rename_i hkey
        obtain ⟨c0, hc0⟩ := lookupE_of_hasKeyE t.es p hkey
        rw [hc0, Option.getD_some] at hrec ⊢
        have := countE_replaceE t.es p (insertParts rest (i + 1) d c0) c0 hc0
        simp only [List.length_cons]
        omega
      · rename_i hkey
        have hnone := lookupE_of_not_hasKeyE t.es p (by simpa using hkey)
        rw [hnone, Option.getD_none] at hrec ⊢
        have := countE_createE p (insertParts rest (i + 1) d emptyNode) t.es
        have hz : countT emptyNode = 0 := rfl
        simp only [List.length_cons]
        omega
    · have hrec := insertParts_count rest (i + 1) d t
      simp only [List.length_cons]
      omega

theorem buildTree_count (paths : List String) (d : Int) :
    countT (buildTree paths d) ≤ totalSegs paths := by
  rw [buildTree]
  suffices h : ∀ (t : TreeNode),
      countT (List.foldl (fun t p => insertParts (splitSeg p) 0 d t) t paths) ≤
        countT t + totalSegs paths by
    have := h emptyNode
    have hz : countT emptyNode = 0 := rfl
    omega
  induction paths with
  | nil => intro t; simp [totalSegs]
  | cons p rest ih =>
    intro t
    simp only [List.foldl_cons, totalSegs]
    have h1 := insertParts_count (splitSeg p) 0 d t
    have h2 := ih (insertParts (splitSeg p) 0 d t)
    omega

/-!
Claim theorems.
-/

/-- C1: for every path-entry sequence and every depth d with 1 ≤ d, the
Builder inserts only segments whose index is strictly below d, so the
built hierarchy has height at most d and no rendered line's key
originates from a segment at index at least d; moreover the walk for a
path entry performs no insertion once the running index has reached d. -/
theorem builder_depth_bound (paths : List String) (d : Int) (t : TreeNode)
    (parts : List String) (i : Nat) (hd : 1 ≤ d) :
    (heightT (buildTree paths d) : Int) ≤ d ∧
      ((i : Int) < d ∨ insertParts parts i d t = t) := by
  constructor
  · have := buildTree_height paths d
    omega
  · rcases lt_or_ge (i : Int) d with h | h
    · exact Or.inl h
    · exact Or.inr (insertParts_stop parts i d t h)

/-- C1 witness: the depth bound and the stopped walk at a concrete input. -/
theorem builder_depth_bound_witness :
    (1 : Int) ≤ 2 ∧
      ((heightT (buildTree ["a/b/c/d"] 2) : Int) ≤ 2 ∧
        (((5 : Nat) : Int) < 2 ∨ insertParts ["x"] 5 2 emptyNode = emptyNode)) :=
  ⟨by decide, builder_depth_bound ["a/b/c/d"] 2 emptyNode ["x"] 5 (by decide)⟩

/-- C2 counterexample: for the input paths b then 1 at depth 1, the key 1
is the last in insertion (first-encounter) order, yet the Renderer gives
the elbow connector to b and the tee to 1, because Object.entries
enumerates the array-index key 1 first; neither output shape predicted by
the claim (elbow on the insertion-last sibling) is produced. -/
theorem connector_insertion_order_cex :
    generateTree ["b", "1"] 1 = "├── 1\n└── b\n" ∧
      firstSeenSegs ["b", "1"] = ["b", "1"] ∧
      generateTree ["b", "1"] 1 ≠ "├── b\n└── 1\n" ∧
      generateTree ["b", "1"] 1 ≠ "└── 1\n├── b\n" := by
  exact ⟨rfl, rfl, by decide, by decide⟩

/-- C2 amended: for every hierarchy node the Renderer emits the elbow
connector for exactly one sibling, the one at the last position of the
node's Object.entries enumeration order (not generally the insertion
order), and the tee connector for every other sibling; the choice is a
function of position within the sibling list only, recomputed
independently at every recursion level: the rendering decomposes into
per-sibling blocks whose connector is connOf i n, the elbow exactly at
position n - 1 and the tee at every earlier position. -/
theorem renderer_connector_positions :
    (∀ (t : TreeNode) (pre : String),
        renderTree t pre = concatBlocks (blocksFrom pre (lengthE t.es) 0 (toListE t.es))) ∧
      (∀ m : Nat, connOf m (m + 1) = "└── ") ∧
      (∀ i j : Nat, connOf i (i + j + 2) = "├── ") := by
  refine ⟨renderTree_eq_blocks, ?_, ?_⟩
  · intro m
    simp [connOf]
  · intro i j
    have h : (i == i + j + 2 - 1) = false := by
      simp only [beq_eq_false_iff_ne, ne_eq]
      omega
    simp [connOf, h]
    omega

/-- C3: evaluation of the code at a failing input, on which the
embedding is exact.  For the input paths z, 10, 2 at depth 1 the
first-encounter order is z, 10, 2, but the hierarchy enumerates and the
Renderer iterates 2, 10, z: the array-index keys are sorted numerically
ahead of z, contradicting that keys sit in first-encounter order, that
no sorting is performed, and that children are iterated in that order.
The program diverges from first-encounter order on a second, unmodelled
path as well: a segment naming an inherited Object.prototype member
(for example toString) creates no key at all. -/
theorem insertion_order_cex :
    keysE (buildTree ["z", "10", "2"] 1).es = ["2", "10", "z"] ∧
      firstSeenSegs ["z", "10", "2"] = ["z", "10", "2"] ∧
      generateTree ["z", "10", "2"] 1 = "├── 2\n├── 10\n└── z\n" ∧
      (["2", "10", "z"] : List String) ≠ ["z", "10", "2"] :=
  ⟨rfl, rfl, rfl, by decide⟩

/-- C4: the two concrete scenarios of the specification, including that
the node reached under x then y in the second scenario is a leaf. -/
theorem concrete_scenarios :
    generateTree ["a/b.txt", "a/c.txt", "d.txt"] 3 =
        "├── a\n│   ├── b.txt\n│   └── c.txt\n└── d.txt\n" ∧
      generateTree ["x/y/z.txt"] 2 = "└── x\n    └── y\n" ∧
      lookupE ((lookupE (buildTree ["x/y/z.txt"] 2).es "x").getD emptyNode).es "y" =
        some emptyNode :=
  ⟨rfl, rfl, rfl⟩

/-- C5: the rendered text of a node decomposes into one block per child
in order, each block being the child's own line followed immediately,
before the next sibling, by its recursively rendered text; the recursive
text is present exactly when the child has at least one entry, and the
recursion uses the prefix extended by four spaces for the last position
and by the vertical-bar continuation for every other position. -/
theorem renderer_recursion_structure :
    (∀ (pre k : String) (i n : Nat),
        blockOf pre k emptyNode i n = pre ++ connOf i n ++ k ++ "\n") ∧
      (∀ (pre k : String) (i n : Nat) (k0 : String) (c0 : TreeNode) (rest : EntryList),
        blockOf pre k (TreeNode.mk (.cons k0 c0 rest)) i n =
          (pre ++ connOf i n ++ k ++ "\n") ++
            renderTree (TreeNode.mk (.cons k0 c0 rest)) (pre ++ contOf i n)) ∧
      (∀ m : Nat, contOf m (m + 1) = "    ") ∧
      (∀ i j : Nat, contOf i (i + j + 2) = "│   ") ∧
      (∀ (t : TreeNode) (pre : String),
        renderTree t pre = concatBlocks (blocksFrom pre (lengthE t.es) 0 (toListE t.es))) := by
  refine ⟨?_, ?_, ?_, ?_, renderTree_eq_blocks⟩
  · intro pre k i n
    simp only [blockOf, emptyNode, TreeNode.es, isEmptyE, if_true]
    rw [strAppendNil]
  · intro pre k i n k0 c0 rest
    simp [blockOf, TreeNode.es, isEmptyE, strAssoc]
  · intro m
    simp [contOf]
  · intro i j
    have h : (i == i + j + 2 - 1) = false := by
      simp only [beq_eq_false_iff_ne, ne_eq]
      omega
    simp [contOf, h]
    omega

/-- C9: the Builder's work is bounded by the input: the hierarchy it
produces holds at most one node per path segment of the input, which
bounds the builder loop and the size of the structure the Renderer
recurses over; both functions are total structural recursions. -/
theorem builder_renderer_size_bound (paths : List String) (d : Int) :
    countT (buildTree paths d) ≤ totalSegs paths :=
  buildTree_count paths d

/-- C10 counterexample: a key containing a newline produces more newline
characters than hierarchy nodes: the single-node hierarchy for the path
containing an embedded newline renders with two newlines. -/
theorem newline_count_cex :
    countNl (generateTree ["a\nb"] 1) = 2 ∧ countT (buildTree ["a\nb"] 1) = 1 ∧
      countNl (generateTree ["a\nb"] 1) ≠ countT (buildTree ["a\nb"] 1) :=
  ⟨rfl, rfl, by decide⟩

/-- C10 amended: for every hierarchy none of whose keys contains a
newline character, the string the Renderer returns for it contains
exactly one newline per key of the hierarchy, over all nesting levels. -/
theorem newline_count_equals_nodes (t : TreeNode) (h : nlFreeT t = true) :
    countNl (renderTree t "") = countT t :=
  countNl_renderTree t "" h (by decide)

/-- C10 witness: newline count equals node count at a concrete hierarchy. -/
theorem newline_count_equals_nodes_witness :
    nlFreeT (buildTree ["a/b", "c"] 2) = true ∧
      countNl (renderTree (buildTree ["a/b", "c"] 2) "") =
        countT (buildTree ["a/b", "c"] 2) :=
  ⟨by decide, newline_count_equals_nodes (buildTree ["a/b", "c"] 2) (by decide)⟩
